import Mathlib

/-!
Shallow embedding of the GitHub raw proxy service (`src/api/github-raw.js`).

JavaScript strings are modelled as lists of characters (`JStr`), JavaScript
millisecond timestamps (`Date.now()`) as `Int`, and the two `Map` objects of
`SimpleCache` as association lists that mirror the insertion-order semantics
of JavaScript `Map`.  The file contains two variants of the service, joined
in the source file; they are embedded in namespaces `V1` (the first,
"newbie-friendly" variant) and `V2` (the second, "optimized" variant).
-/

namespace GithubRaw

/-- JavaScript strings, modelled as lists of characters. -/
abbrev JStr := List Char

/-- Convert a Lean string literal into the `JStr` model. -/
def str (s : String) : JStr := s.data

/-- The characters removed by `String.prototype.trim` (ECMAScript WhiteSpace
and LineTerminator code points). -/
def isJsWhitespace (c : Char) : Bool :=
  c = '\t' ∨ c = '\n' ∨ c = '\x0B' ∨ c = '\x0C' ∨ c = '\r' ∨ c = ' ' ∨
  c = '\xA0' ∨ c = ' ' ∨ c = ' ' ∨ c = ' ' ∨ c = ' ' ∨
  c = ' ' ∨ c = ' ' ∨ c = ' ' ∨ c = ' ' ∨ c = ' ' ∨
  c = ' ' ∨ c = ' ' ∨ c = ' ' ∨ c = ' ' ∨ c = ' ' ∨
  c = ' ' ∨ c = ' ' ∨ c = '　' ∨ c = '﻿'

/-- The ECMAScript LineTerminator code points, which `.` in a regular
expression without the `s` flag does not match. -/
def isLineTerminator (c : Char) : Bool :=
  c = '\n' ∨ c = '\r' ∨ c = ' ' ∨ c = ' '

/-- `String.prototype.trim`: drop whitespace from both ends. -/
def jsTrim (l : JStr) : JStr :=
  ((l.dropWhile isJsWhitespace).reverse.dropWhile isJsWhitespace).reverse

/-- Does `needle` occur at the start of `hay`?  (Used to model the
substring searches performed by `String.prototype.includes` and by
regular-expression tests for literal patterns.) -/
def isPre : JStr → JStr → Bool
  | [], _ => true
  | _ :: _, [] => false
  | a :: as, b :: bs => a = b && isPre as bs

/-- `String.prototype.includes`: substring search. -/
def jsIncludes : JStr → JStr → Bool
  | hay, needle =>
    isPre needle hay ||
      match hay with
      | [] => false
      | _ :: t => jsIncludes t needle

/-- The regular-expression test `/^\//`: does the string start with `/`? -/
def jsStartsSlash : JStr → Bool
  | [] => false
  | c :: _ => c = '/'

/-- The regular-expression test `/\/$/`: does the string end with `/`? -/
def jsEndsSlash : JStr → Bool
  | [] => false
  | [c] => c = '/'
  | _ :: t => jsEndsSlash t

/-- The global replacement `replace(/\/+/g, "/")`: collapse every run of
consecutive slashes to a single slash. -/
def collapseSlashes : JStr → JStr
  | [] => []
  | [c] => [c]
  | a :: b :: r =>
    if a = '/' ∧ b = '/' then collapseSlashes (b :: r)
    else a :: collapseSlashes (b :: r)

/-- The replacement `replace(/^\//, "")`: strip one leading slash. -/
def dropLeadSlash : JStr → JStr
  | [] => []
  | c :: r => if c = '/' then r else c :: r

/-- The replacement `replace(/\/$/, "")`: strip one trailing slash. -/
def dropTrailSlash (l : JStr) : JStr := (dropLeadSlash l.reverse).reverse

/-- `sanitizePath` from the source: trim, collapse slash runs, strip one
leading and one trailing slash; the empty (falsy) input maps to `""`. -/
def sanitizePath (l : JStr) : JStr :=
  dropTrailSlash (dropLeadSlash (collapseSlashes (jsTrim l)))

/-- `path.length` as JavaScript computes it: the number of UTF-16 code
units (supplementary-plane characters count twice). -/
def jsLength (l : JStr) : Nat :=
  (l.map (fun c => if 0x10000 ≤ c.val then 2 else 1)).sum

/-- `MAX_PATH_LENGTH` from the source configuration. -/
def MAX_PATH_LENGTH : Nat := 1000

/-- Consume one `[^\/]+\/` group of the path regular expression: a
non-empty run of non-slash characters followed by a slash; return the
remainder after the slash. -/
def eatSeg (l : JStr) : Option JStr :=
  let s := l.takeWhile (fun c => c ≠ '/')
  if s.isEmpty then none
  else
    match l.dropWhile (fun c => c ≠ '/') with
    | [] => none
    | c :: rest => if c = '/' then some rest else none

/-- The test `/^[^\/]+\/[^\/]+\/[^\/]+\/.+$/.test(path)`: three non-empty
slash-free segments each followed by a slash, then a non-empty remainder
in which `.` must match every character (so no LineTerminator). -/
def pathPatternTest (l : JStr) : Bool :=
  match eatSeg l with
  | none => false
  | some l1 =>
    match eatSeg l1 with
    | none => false
    | some l2 =>
      match eatSeg l2 with
      | none => false
      | some rest => !rest.isEmpty && rest.all (fun c => !isLineTerminator c)

/-- `validatePath` from the source: falsy input rejected, length bound,
shape regular expression, then the four dangerous-pattern tests
(`/\.\./`, `/\/\//`, `/^\//`, `/\/$/`). -/
def validatePath (l : JStr) : Bool :=
  if l.isEmpty then false
  else if MAX_PATH_LENGTH < jsLength l then false
  else if !pathPatternTest l then false
  else
    !(jsIncludes l (str "..") || jsIncludes l (str "//") ||
      jsStartsSlash l || jsEndsSlash l)

/-- `String.prototype.toLowerCase`, restricted to the per-character
simple lower-case mapping. -/
def jsToLower (l : JStr) : JStr := l.map Char.toLower

/-- `ALLOWED_FILE_TYPES` from the source configuration. -/
def ALLOWED_FILE_TYPES : List JStr :=
  [str "text", str "image", str "application", str "audio", str "video"]

/-- `validateFileType` from the source: falsy content type (absent or
empty) passes; otherwise some whitelist entry must occur as a substring
of the lower-cased content type. -/
def validateFileType (contentType : Option JStr) : Bool :=
  match contentType with
  | none => true
  | some s =>
    if s.isEmpty then true
    else ALLOWED_FILE_TYPES.any (fun t => jsIncludes (jsToLower s) t)

/-- `validateToken` from the source: both tokens must be truthy (present
and non-empty) and exactly equal. -/
def validateToken (userToken expectedToken : Option JStr) : Bool :=
  match userToken, expectedToken with
  | some a, some b => !a.isEmpty && !b.isEmpty && a == b
  | _, _ => false

end GithubRaw

section SanityExamples

open GithubRaw

example : sanitizePath (str "//a//b/c/d//") = str "a/b/c/d" := by decide
example : validatePath (str "o/r/b/p/q") = true := by decide
example : validatePath (str "a/../b/c/d") = false := by decide
example : validatePath (str "a/b/c") = false := by decide
example : validateFileType (some (str "text/plain; charset=utf-8")) = true := by decide
example : validateFileType (some (str "font/woff2")) = false := by decide
example : sanitizePath (str "/ a/b") = str " a/b" := by decide
example : sanitizePath (str " a/b") = str "a/b" := by decide
example : validatePath (str "a/b/c/d\n") = false := by decide

end SanityExamples

namespace GithubRaw

/-- Rate-limiter configuration constant `MAX_REQUESTS_PER_SECOND`. -/
def MAX_REQUESTS_PER_SECOND : Nat := 10

/-- The first variant's `RateLimiter` state: the remembered request
timestamps together with the two configuration fields set by the
constructor. -/
structure RateLimiter where
  maxRequests : Nat
  windowMs : Int
  requests : List Int
deriving DecidableEq, Repr

/-- The `RateLimiter` constructor: `windowMs` is fixed at 1000 and the
request list starts empty. -/
def RateLimiter.new (maxRequests : Nat) : RateLimiter :=
  { maxRequests := maxRequests, windowMs := 1000, requests := [] }

/-- `RateLimiter.isAllowed`, with `Date.now()` passed explicitly: prune
timestamps `≤ now - windowMs`, deny if the survivors already reach
`maxRequests`, otherwise record `now` and admit. -/
def RateLimiter.isAllowed (rl : RateLimiter) (now : Int) : Bool × RateLimiter :=
  let windowStart := now - rl.windowMs
  let pruned := rl.requests.filter (fun t => windowStart < t)
  if rl.maxRequests ≤ pruned.length then
    (false, { rl with requests := pruned })
  else
    (true, { rl with requests := pruned ++ [now] })

/-- Run a sequence of `isAllowed` calls at the given times, collecting
each call's boolean verdict. -/
def RateLimiter.runCalls (rl : RateLimiter) : List Int → List Bool × RateLimiter
  | [] => ([], rl)
  | t :: ts =>
    let (b, rl') := rl.isAllowed t
    let (bs, rl'') := rl'.runCalls ts
    (b :: bs, rl'')

/-- Run a sequence of `isAllowed` calls, keeping only the final state. -/
def RateLimiter.runList (rl : RateLimiter) (ts : List Int) : RateLimiter :=
  ts.foldl (fun s t => (s.isAllowed t).2) rl

/-- Cache configuration constant `CACHE_TTL` (seconds). -/
def CACHE_TTL : Int := 300

/-- Cache configuration constant `CACHE_MAX_SIZE`. -/
def CACHE_MAX_SIZE : Nat := 100

/-- Look a key up in an association list modelling a JavaScript `Map`. -/
def assocGet {β : Type} : List (JStr × β) → JStr → Option β
  | [], _ => none
  | (k', v) :: t, k => if k' = k then some v else assocGet t k

/-- `Map.prototype.set`: replace in place if the key is present
(preserving its position), otherwise append at the end. -/
def assocSet {β : Type} : List (JStr × β) → JStr → β → List (JStr × β)
  | [], k, v => [(k, v)]
  | (k', v') :: t, k, v =>
    if k' = k then (k, v) :: t else (k', v') :: assocSet t k v

/-- `Map.prototype.delete`: remove the entry with the given key. -/
def assocDel {β : Type} (l : List (JStr × β)) (k : JStr) : List (JStr × β) :=
  l.filter (fun p => p.1 ≠ k)

namespace V1

/-- A stored cache record of the first variant: `{ value, timestamp }`. -/
structure CacheItem (α : Type) where
  value : α
  timestamp : Int
deriving DecidableEq, Repr

/-- The first variant's `SimpleCache` state: the data map and the map of
pending expiry timers (each modelled by its scheduled fire time). -/
structure SimpleCache (α : Type) where
  cache : List (JStr × CacheItem α)
  timers : List (JStr × Int)
deriving DecidableEq, Repr

/-- The `SimpleCache` constructor: both maps empty. -/
def SimpleCache.new (α : Type) : SimpleCache α := { cache := [], timers := [] }

/-- `SimpleCache.generateKey`. -/
def generateKey (path : JStr) : JStr := str "github_raw_" ++ path

/-- `SimpleCache.delete`: remove the entry and cancel (and remove) its
timer if present. -/
def SimpleCache.delete {α : Type} (c : SimpleCache α) (k : JStr) : SimpleCache α :=
  { cache := assocDel c.cache k, timers := assocDel c.timers k }

/-- The scan inside `SimpleCache.evictOldest`: fold over the entries with
the running `(oldestKey, oldestTime)` pair, `oldestTime` starting at
`Date.now()`, updating on a strictly smaller timestamp. -/
def findOldest {α : Type} (entries : List (JStr × CacheItem α)) (now : Int) :
    Option JStr × Int :=
  entries.foldl
    (fun acc e => if e.2.timestamp < acc.2 then (some e.1, e.2.timestamp) else acc)
    (none, now)

/-- `SimpleCache.evictOldest`: delete the entry found by the scan, if any. -/
def SimpleCache.evictOldest {α : Type} (c : SimpleCache α) (now : Int) : SimpleCache α :=
  match (findOldest c.cache now).1 with
  | none => c
  | some k => c.delete k

/-- `SimpleCache.set`: clear any previous timer (no map effect), store
`{ value, timestamp: now }`, schedule a fresh expiry timer at
`now + ttl * 1000`, then evict the oldest entry if the size now exceeds
`CACHE_MAX_SIZE`. -/
def SimpleCache.set {α : Type} (c : SimpleCache α) (k : JStr) (v : α) (ttl : Int)
    (now : Int) : SimpleCache α :=
  let c1 : SimpleCache α :=
    { cache := assocSet c.cache k ⟨v, now⟩,
      timers := assocSet c.timers k (now + ttl * 1000) }
  if CACHE_MAX_SIZE < c1.cache.length then c1.evictOldest now else c1

/-- `SimpleCache.get`: miss on absence; lazily expire (delete and miss)
when `now - timestamp > CACHE_TTL * 1000`; otherwise return the stored
value.  Note the comparison uses the configuration constant `CACHE_TTL`,
not the ttl that was passed to `set`. -/
def SimpleCache.get {α : Type} (c : SimpleCache α) (k : JStr) (now : Int) :
    Option α × SimpleCache α :=
  match assocGet c.cache k with
  | none => (none, c)
  | some item =>
    if CACHE_TTL * 1000 < now - item.timestamp then (none, c.delete k)
    else (some item.value, c)

end V1

namespace V2

/-- A stored cache record of the second variant:
`{ value, timestamp, ttl: ttl * 1000 }`. -/
structure CacheItem (α : Type) where
  value : α
  timestamp : Int
  ttl : Int
deriving DecidableEq, Repr

/-- The second variant's `SimpleCache` state. -/
structure SimpleCache (α : Type) where
  cache : List (JStr × CacheItem α)
  timers : List (JStr × Int)
deriving DecidableEq, Repr

/-- The second variant's `SimpleCache` constructor. -/
def SimpleCache.new (α : Type) : SimpleCache α := { cache := [], timers := [] }

/-- The second variant's `SimpleCache.delete`. -/
def SimpleCache.delete {α : Type} (c : SimpleCache α) (k : JStr) : SimpleCache α :=
  { cache := assocDel c.cache k, timers := assocDel c.timers k }

/-- The second variant's `evictOldest` scan, identical to the first
variant's. -/
def findOldest {α : Type} (entries : List (JStr × CacheItem α)) (now : Int) :
    Option JStr × Int :=
  entries.foldl
    (fun acc e => if e.2.timestamp < acc.2 then (some e.1, e.2.timestamp) else acc)
    (none, now)

/-- The second variant's `SimpleCache.evictOldest`. -/
def SimpleCache.evictOldest {α : Type} (c : SimpleCache α) (now : Int) : SimpleCache α :=
  match (findOldest c.cache now).1 with
  | none => c
  | some k => c.delete k

/-- The second variant's `SimpleCache.set`: like the first variant's but
the per-entry ttl (in milliseconds) is stored inside the record. -/
def SimpleCache.set {α : Type} (c : SimpleCache α) (k : JStr) (v : α) (ttl : Int)
    (now : Int) : SimpleCache α :=
  let c1 : SimpleCache α :=
    { cache := assocSet c.cache k ⟨v, now, ttl * 1000⟩,
      timers := assocSet c.timers k (now + ttl * 1000) }
  if CACHE_MAX_SIZE < c1.cache.length then c1.evictOldest now else c1

/-- The second variant's `SimpleCache.get`: the lazy expiry check
compares against the stored per-entry `item.ttl`. -/
def SimpleCache.get {α : Type} (c : SimpleCache α) (k : JStr) (now : Int) :
    Option α × SimpleCache α :=
  match assocGet c.cache k with
  | none => (none, c)
  | some item =>
    if item.ttl < now - item.timestamp then (none, c.delete k)
    else (some item.value, c)

end V2

/-- `REDIRECT_URL` from the source configuration. -/
def REDIRECT_URL : JStr := str "https://www.baidu.com"

/-- The caller-visible outcome of one handler run: either the redirect
produced by `redirectToSafePage`, or a 200 response carrying the
`X-Cache` header value, the content type and the body. -/
inductive Response where
  | redirect (url : JStr)
  | ok (xCache : JStr) (contentType : JStr) (body : JStr)
deriving DecidableEq, Repr

/-- `redirectToSafePage`: the uniform deflection used on every rejection. -/
def redirectToSafePage : Response := Response.redirect REDIRECT_URL

/-- Is the response a redirect (as opposed to a 200 payload)? -/
def Response.isRedirect : Response → Bool
  | Response.redirect _ => true
  | Response.ok _ _ _ => false

/-- A successfully fetched object: the `githubResult` fields that the
handler stores and serves (`content` and `contentType`). -/
structure FetchSuccess where
  content : JStr
  contentType : JStr
deriving DecidableEq, Repr

/-- Everything one run of the first variant's `handler` (steps 2 to 10,
after the health-check branch) depends on: the two request parameters,
the configured secret, the shared limiter and cache states, the clock,
and the outcome `fetchFromGitHub` would produce (`none` models
`success: false`). -/
structure HandlerInput where
  userToken : Option JStr
  githubPath : Option JStr
  envToken : Option JStr
  rl : RateLimiter
  cache : V1.SimpleCache FetchSuccess
  now : Int
  fetchResult : Option FetchSuccess
deriving Repr

/-- A JavaScript falsy test for an optional string: absent or empty. -/
def jsFalsy (o : Option JStr) : Bool :=
  match o with
  | none => true
  | some s => s.isEmpty

/-- The first variant's `handler`, steps 2 to 10: each failed gate
returns `redirectToSafePage`; a cache hit returns the cached content
with `X-Cache: HIT`; a fetched result that passes the type gate is
cached and returned with `X-Cache: MISS`. -/
def handler (i : HandlerInput) :
    Response × RateLimiter × V1.SimpleCache FetchSuccess :=
  if jsFalsy i.userToken then (redirectToSafePage, i.rl, i.cache)
  else if jsFalsy i.githubPath then (redirectToSafePage, i.rl, i.cache)
  else if !validateToken i.userToken i.envToken then
    (redirectToSafePage, i.rl, i.cache)
  else
    match i.rl.isAllowed i.now with
    | (false, rl') => (redirectToSafePage, rl', i.cache)
    | (true, rl') =>
      let sanitizedPath := sanitizePath (i.githubPath.getD [])
      if !validatePath sanitizedPath then (redirectToSafePage, rl', i.cache)
      else
        let cacheKey := V1.generateKey sanitizedPath
        match i.cache.get cacheKey i.now with
        | (some cached, c') =>
          (Response.ok (str "HIT") cached.contentType cached.content, rl', c')
        | (none, c') =>
          match i.fetchResult with
          | none => (redirectToSafePage, rl', c')
          | some fetched =>
            if !validateFileType (some fetched.contentType) then
              (redirectToSafePage, rl', c')
            else
              (Response.ok (str "MISS") fetched.contentType fetched.content,
               rl', c'.set cacheKey fetched CACHE_TTL i.now)

/-- One abstract operation on the first variant's cache: the exported
mutators plus a timer firing (which runs the scheduled `delete` provided
the timer is still pending). -/
inductive CacheOp (α : Type) where
  | setOp (k : JStr) (v : α) (ttl : Int) (now : Int)
  | getOp (k : JStr) (now : Int)
  | delOp (k : JStr)
  | evictOp (now : Int)
  | fireOp (k : JStr)

/-- Apply one abstract operation to a cache state. -/
def applyOp {α : Type} (c : V1.SimpleCache α) : CacheOp α → V1.SimpleCache α
  | CacheOp.setOp k v ttl now => c.set k v ttl now
  | CacheOp.getOp k now => (c.get k now).2
  | CacheOp.delOp k => c.delete k
  | CacheOp.evictOp now => c.evictOldest now
  | CacheOp.fireOp k =>
    if (assocGet c.timers k).isSome then c.delete k else c

/-- Apply a whole sequence of operations starting from the freshly
constructed cache. -/
def applyOps {α : Type} (ops : List (CacheOp α)) : V1.SimpleCache α :=
  ops.foldl applyOp (V1.SimpleCache.new α)

/-- Split a string at every slash (the slash-separated segments the
specification speaks about). -/
def splitSlash : JStr → List JStr
  | [] => [[]]
  | c :: cs =>
    if c = '/' then [] :: splitSlash cs
    else
      match splitSlash cs with
      | [] => [[c]]
      | s :: ss => (c :: s) :: ss

/-- Rejoin slash-separated segments. -/
def joinSlash : List JStr → JStr
  | [] => []
  | [s] => s
  | s :: t => s ++ '/' :: joinSlash t

/-- Modelled from the claim's words: `p` is accepted when its length is
at most 1000, it consists of four or more non-empty slash-separated
segments, and it contains no `..`, no `//`, no leading slash and no
trailing slash. -/
def claimAccepts (l : JStr) : Bool :=
  decide (jsLength l ≤ 1000) &&
  decide (4 ≤ (splitSlash l).length) &&
  (splitSlash l).all (fun s => !s.isEmpty) &&
  !jsIncludes l (str "..") && !jsIncludes l (str "//") &&
  !jsStartsSlash l && !jsEndsSlash l

/-- The claim's acceptance condition amended by the one restriction the
regular expression `.+$` adds: the remainder after the third slash may
not contain a LineTerminator character. -/
def amendedAccepts (l : JStr) : Bool :=
  claimAccepts l &&
  ((splitSlash l).drop 3).all (fun seg => seg.all (fun c => !isLineTerminator c))

/-! ### Rate limiter lemmas -/

theorem isAllowed_replicate_step (t0 : Int) (m : Nat) (hm : m < 10) :
    RateLimiter.isAllowed ⟨10, 1000, List.replicate m t0⟩ t0
      = (true, ⟨10, 1000, List.replicate (m + 1) t0⟩) := by
  unfold RateLimiter.isAllowed
  have h1 : (List.replicate m t0).filter (fun t => decide (t0 - 1000 < t))
      = List.replicate m t0 := by
    apply List.filter_eq_self.mpr
    intro a ha
    have := List.eq_of_mem_replicate ha
    subst this
    simp only [decide_eq_true_eq]
    omega
  simp only [h1, List.length_replicate]
  have h2 : ¬ (10 ≤ m) := by omega
  simp [h2, List.replicate_succ']

theorem runCalls_const (t0 : Int) :
    ∀ (j m : Nat), m + j ≤ 10 →
      RateLimiter.runCalls ⟨10, 1000, List.replicate m t0⟩ (List.replicate j t0)
        = (List.replicate j true, ⟨10, 1000, List.replicate (m + j) t0⟩)
  | 0, m, _ => by simp [RateLimiter.runCalls]
  | j + 1, m, h => by
    rw [List.replicate_succ]
    unfold RateLimiter.runCalls
    rw [isAllowed_replicate_step t0 m (by omega)]
    dsimp only
    rw [runCalls_const t0 j (m + 1) (by omega)]
    dsimp only
    rw [← List.replicate_succ]
    have harith : m + 1 + j = m + (j + 1) := by omega
    rw [harith]

/-- Claim C1: `RateLimiter.isAllowed` first prunes every timestamp
`≤ now - windowMs`; if the remaining count reaches `maxRequests` it
denies without recording `now`, otherwise it appends `now` and admits.
With `maxRequests = 10` and `windowMs = 1000`, ten calls at `t0` all
admit, an eleventh at `t0 + 1` is denied, and a call at `t0 + 1001` is
admitted again. -/
theorem rateLimiter_isAllowed_matches_spec :
    (∀ (rl : RateLimiter) (now : Int),
      (rl.maxRequests ≤ (rl.requests.filter (fun t => now - rl.windowMs < t)).length →
        rl.isAllowed now =
          (false, { rl with requests := rl.requests.filter (fun t => now - rl.windowMs < t) })) ∧
      ((rl.requests.filter (fun t => now - rl.windowMs < t)).length < rl.maxRequests →
        rl.isAllowed now =
          (true, { rl with
            requests := rl.requests.filter (fun t => now - rl.windowMs < t) ++ [now] }))) ∧
    (∀ t0 : Int,
      ((RateLimiter.new 10).runCalls (List.replicate 10 t0)).1 = List.replicate 10 true ∧
      ((((RateLimiter.new 10).runCalls (List.replicate 10 t0)).2).isAllowed (t0 + 1)).1
        = false ∧
      ((((((RateLimiter.new 10).runCalls (List.replicate 10 t0)).2).isAllowed
          (t0 + 1)).2).isAllowed (t0 + 1001)).1 = true) := by
  constructor
  · intro rl now
    constructor
    · intro hge
      unfold RateLimiter.isAllowed
      simp [hge]
    · intro hlt
      unfold RateLimiter.isAllowed
      have : ¬ (rl.maxRequests ≤ (rl.requests.filter (fun t => now - rl.windowMs < t)).length) := by
        omega
      simp [this]
  · intro t0
    have h0 : (RateLimiter.new 10).runCalls (List.replicate 10 t0)
        = (List.replicate 10 true, ⟨10, 1000, List.replicate 10 t0⟩) := by
      have := runCalls_const t0 10 0 (by omega)
      simpa [RateLimiter.new] using this
    rw [h0]
    have hkeep : (List.replicate 10 t0).filter (fun t => decide (t0 + 1 - 1000 < t))
        = List.replicate 10 t0 := by
      apply List.filter_eq_self.mpr
      intro a ha
      have := List.eq_of_mem_replicate ha
      subst this
      simp only [decide_eq_true_eq]
      omega
    have h11 : RateLimiter.isAllowed ⟨10, 1000, List.replicate 10 t0⟩ (t0 + 1)
        = (false, ⟨10, 1000, List.replicate 10 t0⟩) := by
      unfold RateLimiter.isAllowed
      simp only [hkeep, List.length_replicate, le_refl, if_true]
    rw [h11]
    have hdrop : (List.replicate 10 t0).filter (fun t => decide (t0 + 1001 - 1000 < t))
        = [] := by
      apply List.filter_eq_nil_iff.mpr
      intro a ha
      have := List.eq_of_mem_replicate ha
      subst this
      simp only [decide_eq_true_eq]
      omega
    have h12 : (RateLimiter.isAllowed ⟨10, 1000, List.replicate 10 t0⟩ (t0 + 1001)).1
        = true := by
      unfold RateLimiter.isAllowed
      simp only [hdrop, List.length_nil]
      norm_num
    exact ⟨rfl, rfl, h12⟩

/-- Witness for C1: the admitting branch of the behavioural description,
applied to a fresh limiter at time 0. -/
theorem rateLimiter_isAllowed_matches_spec_witness :
    (((RateLimiter.new 10).requests.filter
        (fun t => (0 : Int) - (RateLimiter.new 10).windowMs < t)).length
      < (RateLimiter.new 10).maxRequests) ∧
    (RateLimiter.new 10).isAllowed 0
      = (true, { RateLimiter.new 10 with
          requests := (RateLimiter.new 10).requests.filter
              (fun t => (0 : Int) - (RateLimiter.new 10).windowMs < t) ++ [(0 : Int)] }) := by
  refine ⟨by decide, ?_⟩
  exact (rateLimiter_isAllowed_matches_spec.1 (RateLimiter.new 10) 0).2 (by decide)

/-- Claim C8: `validateFileType` accepts an absent or empty content type
and otherwise accepts exactly when some whitelist entry occurs as a
substring of the lower-cased content type; `"text/plain; charset=utf-8"`
is accepted, `"font/woff2"` is rejected. -/
theorem validateFileType_whitelist_spec :
    validateFileType none = true ∧
    validateFileType (some []) = true ∧
    (∀ s : JStr, validateFileType (some s) = true ↔
      (s = [] ∨ ∃ t ∈ ALLOWED_FILE_TYPES, jsIncludes (jsToLower s) t = true)) ∧
    validateFileType (some (str "text/plain; charset=utf-8")) = true ∧
    validateFileType (some (str "font/woff2")) = false := by
  refine ⟨rfl, by decide, ?_, by decide, by decide⟩
  intro s
  cases s with
  | nil => simp [validateFileType]
  | cons c cs =>
    simp [validateFileType, List.any_eq_true]

/-! ### Rate limiter invariant (claim C7) -/

theorem isAllowed_snd_mem (rl : RateLimiter) (now : Int) :
    ∀ x ∈ ((rl.isAllowed now).2).requests, x ∈ rl.requests ∨ x = now := by
  unfold RateLimiter.isAllowed
  dsimp only
  split
  · intro x hx
    exact Or.inl (List.mem_of_mem_filter hx)
  · intro x hx
    rcases List.mem_append.mp hx with h | h
    · exact Or.inl (List.mem_of_mem_filter h)
    · simp at h
      exact Or.inr h

theorem runList_mem_le (now : Int) :
    ∀ (ts : List Int) (rl : RateLimiter),
      (∀ x ∈ rl.requests, x ≤ now) → (∀ t ∈ ts, t ≤ now) →
      ∀ x ∈ (rl.runList ts).requests, x ≤ now
  | [], rl, hrl, _ => by
    simpa [RateLimiter.runList] using hrl
  | t :: ts, rl, hrl, hts => by
    have hstep : ∀ x ∈ ((rl.isAllowed t).2).requests, x ≤ now := by
      intro x hx
      rcases isAllowed_snd_mem rl t x hx with h | h
      · exact hrl x h
      · subst h
        exact hts x (List.mem_cons_self _ _)
    have htail : ∀ u ∈ ts, u ≤ now := fun u hu => hts u (List.mem_cons_of_mem _ hu)
    have := runList_mem_le now ts ((rl.isAllowed t).2) hstep htail
    simpa [RateLimiter.runList] using this

theorem isAllowed_preserves_config (rl : RateLimiter) (now : Int) :
    ((rl.isAllowed now).2).maxRequests = rl.maxRequests ∧
    ((rl.isAllowed now).2).windowMs = rl.windowMs := by
  unfold RateLimiter.isAllowed
  dsimp only
  split <;> simp

theorem runList_preserves_config :
    ∀ (ts : List Int) (rl : RateLimiter),
      (rl.runList ts).maxRequests = rl.maxRequests ∧
      (rl.runList ts).windowMs = rl.windowMs
  | [], rl => by simp [RateLimiter.runList]
  | t :: ts, rl => by
    have h1 := isAllowed_preserves_config rl t
    have h2 := runList_preserves_config ts ((rl.isAllowed t).2)
    simpa [RateLimiter.runList, h1.1, h1.2] using h2

theorem isAllowed_admit_length (rl : RateLimiter) (now : Int) :
    (rl.isAllowed now).1 = true →
    ((rl.isAllowed now).2).requests.length ≤ rl.maxRequests := by
  unfold RateLimiter.isAllowed
  dsimp only
  split
  · intro h
    simp at h
  · intro _
    rename_i hlt
    simp only [List.length_append, List.length_cons, List.length_nil]
    omega

/-- Claim C7: starting from a fresh limiter and running any sequence of
admission checks at times that are all at most `now`, a check at `now`
prunes the window to timestamps within `[now - windowMs, now]`, and if
that check admits, the resulting window holds at most `maxRequests`
timestamps. -/
theorem rateLimiter_window_invariant (m : Nat) (ts : List Int) (now : Int)
    (hts : ∀ t ∈ ts, t ≤ now) :
    (∀ x ∈ (((RateLimiter.new m).runList ts).requests.filter
        (fun t => now - ((RateLimiter.new m).runList ts).windowMs < t)),
      now - ((RateLimiter.new m).runList ts).windowMs ≤ x ∧ x ≤ now) ∧
    ((((RateLimiter.new m).runList ts).isAllowed now).1 = true →
      ((((RateLimiter.new m).runList ts).isAllowed now).2).requests.length ≤ m) := by
  constructor
  · intro x hx
    have hmem : x ∈ ((RateLimiter.new m).runList ts).requests :=
      List.mem_of_mem_filter hx
    have hp := List.of_mem_filter hx
    simp only [decide_eq_true_eq] at hp
    have hle : x ≤ now := by
      refine runList_mem_le now ts (RateLimiter.new m) ?_ hts x hmem
      intro y hy
      simp [RateLimiter.new] at hy
    exact ⟨le_of_lt hp, hle⟩
  · intro h
    have hlen := isAllowed_admit_length ((RateLimiter.new m).runList ts) now h
    have hcfg := (runList_preserves_config ts (RateLimiter.new m)).1
    rw [hcfg] at hlen
    simpa [RateLimiter.new] using hlen

/-- Witness for C7: a fresh limiter with quota 2, one prior call at time
5, checked again at time 7. -/
theorem rateLimiter_window_invariant_witness :
    ((7 : Int) - ((RateLimiter.new 2).runList [5]).windowMs ≤ 5 ∧ (5 : Int) ≤ 7) ∧
    ((((RateLimiter.new 2).runList [5]).isAllowed 7).2).requests.length ≤ 2 := by
  have h := rateLimiter_window_invariant 2 [5] 7 (by decide)
  exact ⟨h.1 5 (by decide), h.2 (by decide)⟩

/-! ### Association list lemmas -/

theorem assocGet_assocSet_self {β : Type} :
    ∀ (l : List (JStr × β)) (k : JStr) (v : β),
      assocGet (assocSet l k v) k = some v
  | [], k, v => by simp [assocSet, assocGet]
  | (k', v') :: t, k, v => by
    by_cases h : k' = k
    · simp [assocSet, assocGet, h]
    · simp [assocSet, assocGet, h]
      exact assocGet_assocSet_self t k v

theorem assocSet_length_le {β : Type} :
    ∀ (l : List (JStr × β)) (k : JStr) (v : β),
      (assocSet l k v).length ≤ l.length + 1
  | [], k, v => by simp [assocSet]
  | (k', v') :: t, k, v => by
    by_cases h : k' = k
    · simp [assocSet, h]
    · simp only [assocSet, if_neg h, List.length_cons]
      have := assocSet_length_le t k v
      omega

/-! ### Cache round trip (claim C10) -/

/-- Claim C10: a `get` performed right after `set` (with room in the
cache so the insertion does not trigger eviction, and before the default
TTL elapses) returns exactly the stored value. -/
theorem cache_set_get_roundtrip {α : Type} (c : V1.SimpleCache α) (k : JStr)
    (v : α) (ttl now now' : Int)
    (hcap : c.cache.length < CACHE_MAX_SIZE)
    (httl : now' - now ≤ CACHE_TTL * 1000) :
    (c.set k v ttl now).get k now' = (some v, c.set k v ttl now) := by
  have hlen : ¬ (CACHE_MAX_SIZE < (assocSet c.cache k ⟨v, now⟩).length) := by
    have := assocSet_length_le c.cache k (⟨v, now⟩ : V1.CacheItem α)
    omega
  have hset : c.set k v ttl now =
      { cache := assocSet c.cache k ⟨v, now⟩,
        timers := assocSet c.timers k (now + ttl * 1000) } := by
    unfold V1.SimpleCache.set
    simp [hlen]
  rw [hset]
  unfold V1.SimpleCache.get
  simp only [assocGet_assocSet_self]
  have hexp : ¬ (CACHE_TTL * 1000 < now' - now) := by omega
  simp [hexp]

/-- Witness for C10: storing value 7 in the fresh cache at time 0 and
reading it back at time 0. -/
theorem cache_set_get_roundtrip_witness :
    ((V1.SimpleCache.new Nat).cache.length < CACHE_MAX_SIZE ∧
      (0 : Int) - 0 ≤ CACHE_TTL * 1000) ∧
    ((V1.SimpleCache.new Nat).set (str "k") 7 CACHE_TTL 0).get (str "k") 0
      = (some 7, (V1.SimpleCache.new Nat).set (str "k") 7 CACHE_TTL 0) := by
  refine ⟨⟨by decide, by decide⟩, ?_⟩
  exact cache_set_get_roundtrip (V1.SimpleCache.new Nat) (str "k") 7 CACHE_TTL 0 0
    (by decide) (by decide)

/-! ### Lazy expiry and per-entry TTL (claim C3) -/

/-- Counterexample for C3 as stated: in the first variant, an entry
stored with a per-entry ttl of 600 seconds at time 0 is still within its
per-entry TTL at time 300001 ms, yet `get` misses (the lazy check uses
the constant `CACHE_TTL = 300` seconds) and deletes the entry. -/
theorem get_ignores_per_entry_ttl_cex :
    assocGet ((V1.SimpleCache.new Nat).set (str "k") 7 600 0).cache (str "k")
      = some ⟨7, 0⟩ ∧
    ((300001 : Int) - 0 ≤ 600 * 1000) ∧
    (((V1.SimpleCache.new Nat).set (str "k") 7 600 0).get (str "k") 300001).1
      = none := by
  decide

/-- Claim C3 amended: the first variant's `get` applies lazy expiry with
the configuration constant `CACHE_TTL` regardless of the ttl passed to
`set` (which only schedules the eager timer), returning the stored
payload when `now - insertedAt ≤ CACHE_TTL * 1000` and deleting and
missing otherwise; the second (optimized) variant's `get` honours the
per-entry TTL stored by its `set`. -/
theorem lazy_expiry_per_variant {α : Type} :
    (∀ (c : V1.SimpleCache α) (k : JStr) (v : α) (ts now : Int),
      assocGet c.cache k = some ⟨v, ts⟩ →
      ((now - ts ≤ CACHE_TTL * 1000 → c.get k now = (some v, c)) ∧
       (CACHE_TTL * 1000 < now - ts → c.get k now = (none, c.delete k)))) ∧
    (∀ (c : V2.SimpleCache α) (k : JStr) (v : α) (ts tms now : Int),
      assocGet c.cache k = some ⟨v, ts, tms⟩ →
      ((now - ts ≤ tms → c.get k now = (some v, c)) ∧
       (tms < now - ts → c.get k now = (none, c.delete k)))) ∧
    (∀ (c : V2.SimpleCache α) (k : JStr) (v : α) (ttl now : Int),
      c.cache.length < CACHE_MAX_SIZE →
      assocGet ((c.set k v ttl now)).cache k = some ⟨v, now, ttl * 1000⟩) := by
  refine ⟨?_, ?_, ?_⟩
  · intro c k v ts now hmem
    constructor
    · intro hin
      unfold V1.SimpleCache.get
      rw [hmem]
      have : ¬ (CACHE_TTL * 1000 < now - ts) := by omega
      simp [this]
    · intro hout
      unfold V1.SimpleCache.get
      rw [hmem]
      simp [hout]
  · intro c k v ts tms now hmem
    constructor
    · intro hin
      unfold V2.SimpleCache.get
      rw [hmem]
      have : ¬ (tms < now - ts) := by omega
      simp [this]
    · intro hout
      unfold V2.SimpleCache.get
      rw [hmem]
      simp [hout]
  · intro c k v ttl now hcap
    have hlen : ¬ (CACHE_MAX_SIZE < (assocSet c.cache k ⟨v, now, ttl * 1000⟩).length) := by
      have := assocSet_length_le c.cache k (⟨v, now, ttl * 1000⟩ : V2.CacheItem α)
      omega
    unfold V2.SimpleCache.set
    simp only [hlen, if_false]
    exact assocGet_assocSet_self c.cache k _

/-- Witness for C3's amended theorem: a one-entry first-variant cache
probed within the default TTL, and a fresh second-variant cache storing
with a per-entry ttl of 600 seconds. -/
theorem lazy_expiry_per_variant_witness :
    (V1.SimpleCache.get ⟨[(str "k", ⟨7, 0⟩)], [(str "k", 300000)]⟩ (str "k") 5
      = (some 7, (⟨[(str "k", ⟨7, 0⟩)], [(str "k", 300000)]⟩ : V1.SimpleCache Nat))) ∧
    assocGet ((V2.SimpleCache.new Nat).set (str "k") 7 600 0).cache (str "k")
      = some ⟨7, 0, 600 * 1000⟩ := by
  constructor
  · exact ((lazy_expiry_per_variant.1 ⟨[(str "k", ⟨7, 0⟩)], [(str "k", 300000)]⟩
      (str "k") 7 0 5) (by decide)).1 (by decide)
  · exact lazy_expiry_per_variant.2.2 (V2.SimpleCache.new Nat) (str "k") 7 600 0
      (by decide)

/-! ### Capacity eviction (claim C2) -/

/-- A hundred distinct single-character cache keys. -/
def c2Key (i : Nat) : JStr := [Char.ofNat (65 + i)]

/-- A first-variant cache holding exactly `CACHE_MAX_SIZE` entries, all
inserted at timestamp 5. -/
def c2State : V1.SimpleCache Nat :=
  { cache := (List.range 100).map (fun i => (c2Key i, ⟨i, 5⟩)),
    timers := (List.range 100).map (fun i => (c2Key i, 300005)) }

set_option maxRecDepth 8000

/-- Claim C2 fails on the code: with the cache full of entries whose
`insertedAt` equals the current time, inserting one more distinct key at
that same millisecond leaves 101 entries — `evictOldest` initialises its
scan at `Date.now()` and compares strictly, so no entry is evicted and
the stated capacity bound is exceeded; at any strictly later time (here
6) the eviction does occur and 100 entries remain. -/
theorem cache_eviction_skips_when_all_timestamps_now :
    c2State.cache.length = 100 ∧
    (c2State.cache.map Prod.fst).Nodup ∧
    str "fresh" ∉ c2State.cache.map Prod.fst ∧
    ((c2State.set (str "fresh") 100 300 5).cache.length = 101) ∧
    ((c2State.set (str "fresh") 100 300 6).cache.length = 100) := by
  decide

/-! ### Cache/timers key synchronisation (claim C9) -/

theorem assocSet_keys {β : Type} :
    ∀ (l : List (JStr × β)) (k : JStr) (v : β),
      (assocSet l k v).map Prod.fst =
        if k ∈ l.map Prod.fst then l.map Prod.fst else l.map Prod.fst ++ [k]
  | [], k, v => by
    have hne : ¬ (k ∈ (([] : List (JStr × β)).map Prod.fst)) := by simp
    rw [if_neg hne]
    rfl
  | (k', v') :: t, k, v => by
    by_cases h : k' = k
    · subst h
      simp only [assocSet, ite_true]
      rw [if_pos (show k' ∈ List.map Prod.fst ((k', v') :: t) from List.mem_cons_self _ _)]
      simp only [List.map_cons]
    · have hmem : (k ∈ (k', v').fst :: t.map Prod.fst) ↔ (k ∈ t.map Prod.fst) := by
        constructor
        · intro hk
          rcases List.mem_cons.mp hk with h1 | h1
          · exact absurd h1.symm h
          · exact h1
        · exact fun hk => List.mem_cons_of_mem _ hk
      simp only [assocSet, if_neg h, List.map_cons, hmem]
      rw [assocSet_keys t k v]
      by_cases hk : k ∈ t.map Prod.fst
      · simp [hk]
      · simp [hk]

theorem assocDel_keys {β : Type} :
    ∀ (l : List (JStr × β)) (k : JStr),
      (assocDel l k).map Prod.fst = (l.map Prod.fst).filter (fun x => x ≠ k)
  | [], k => by simp [assocDel]
  | (k', v') :: t, k => by
    have ih := assocDel_keys t k
    simp only [assocDel, ne_eq, decide_not] at ih ⊢
    by_cases h : k' = k
    · simp [h, ih]
    · simp [h, ih]

/-- The invariant tying the two maps of the first variant's cache
together: equal key sequences, without duplicates. -/
def KeysSync {α : Type} (c : V1.SimpleCache α) : Prop :=
  c.cache.map Prod.fst = c.timers.map Prod.fst ∧ (c.cache.map Prod.fst).Nodup

theorem keysSync_new (α : Type) : KeysSync (V1.SimpleCache.new α) := by
  constructor <;> simp [V1.SimpleCache.new]

theorem keysSync_delete {α : Type} (c : V1.SimpleCache α) (k : JStr)
    (h : KeysSync c) : KeysSync (c.delete k) := by
  constructor
  · show (assocDel c.cache k).map Prod.fst = (assocDel c.timers k).map Prod.fst
    rw [assocDel_keys, assocDel_keys, h.1]
  · show ((assocDel c.cache k).map Prod.fst).Nodup
    rw [assocDel_keys]
    exact h.2.filter _

theorem keysSync_set {α : Type} (c : V1.SimpleCache α) (k : JStr) (v : α)
    (ttl now : Int) (h : KeysSync c) : KeysSync (c.set k v ttl now) := by
  have hmid : KeysSync
      ({ cache := assocSet c.cache k ⟨v, now⟩,
         timers := assocSet c.timers k (now + ttl * 1000) } : V1.SimpleCache α) := by
    constructor
    · show (assocSet c.cache k _).map Prod.fst = (assocSet c.timers k _).map Prod.fst
      rw [assocSet_keys, assocSet_keys, h.1]
    · show ((assocSet c.cache k _).map Prod.fst).Nodup
      rw [assocSet_keys]
      by_cases hk : k ∈ c.cache.map Prod.fst
      · simp [hk, h.2]
      · simp [hk, List.nodup_append, h.2]
  unfold V1.SimpleCache.set
  dsimp only
  split
  · unfold V1.SimpleCache.evictOldest
    split
    · exact hmid
    · exact keysSync_delete _ _ hmid
  · exact hmid

theorem keysSync_applyOp {α : Type} (c : V1.SimpleCache α) (op : CacheOp α)
    (h : KeysSync c) : KeysSync (applyOp c op) := by
  cases op with
  | setOp k v ttl now => exact keysSync_set c k v ttl now h
  | getOp k now =>
    show KeysSync (c.get k now).2
    unfold V1.SimpleCache.get
    cases assocGet c.cache k with
    | none => exact h
    | some item =>
      dsimp only
      split
      · exact keysSync_delete c k h
      · exact h
  | delOp k => exact keysSync_delete c k h
  | evictOp now =>
    show KeysSync (c.evictOldest now)
    unfold V1.SimpleCache.evictOldest
    split
    · exact h
    · exact keysSync_delete _ _ h
  | fireOp k =>
    show KeysSync (if (assocGet c.timers k).isSome then c.delete k else c)
    split
    · exact keysSync_delete c k h
    · exact h

theorem keysSync_foldl {α : Type} :
    ∀ (ops : List (CacheOp α)) (c : V1.SimpleCache α),
      KeysSync c → KeysSync (ops.foldl applyOp c)
  | [], c, h => h
  | op :: ops, c, h => by
    simpa [List.foldl_cons] using
      keysSync_foldl ops (applyOp c op) (keysSync_applyOp c op h)

/-- Claim C9: after any sequence of `set`, `get`, `delete`, `evictOldest`
and timer-fired deletions starting from a fresh cache, the key sequence
of the timers map equals the key sequence of the cache map, with no
duplicates — each cached entry has exactly one pending expiry action and
conversely. -/
theorem cache_timers_key_sync {α : Type} (ops : List (CacheOp α)) :
    (applyOps ops).cache.map Prod.fst = (applyOps ops).timers.map Prod.fst ∧
    ((applyOps ops).cache.map Prod.fst).Nodup :=
  keysSync_foldl ops (V1.SimpleCache.new α) (keysSync_new α)

/-! ### Uniform rejection responses (claim C4) -/

theorem handler_redirect_shape (i : HandlerInput) :
    (handler i).1 = redirectToSafePage ∨
      ∃ x ct b, (handler i).1 = Response.ok x ct b := by
  unfold handler
  dsimp only
  repeat' split
  all_goals first
    | exact Or.inl rfl
    | exact Or.inr ⟨_, _, _, rfl⟩

/-- Claim C4: any two handler runs that end in a rejection (of any of
the reasons: missing parameter, invalid token, rate limited, invalid
path, origin fetch failure, unsupported content type) return the same
caller-visible response, namely the fixed redirect of
`redirectToSafePage`; no two rejection reasons are distinguishable. -/
theorem rejected_responses_uniform (i j : HandlerInput)
    (hi : (handler i).1.isRedirect = true) (hj : (handler j).1.isRedirect = true) :
    (handler i).1 = Response.redirect REDIRECT_URL ∧
    (handler i).1 = (handler j).1 := by
  rcases handler_redirect_shape i with h1 | ⟨x, ct, b, h1⟩
  · rcases handler_redirect_shape j with h2 | ⟨y, cu, d, h2⟩
    · exact ⟨h1, by rw [h1, h2]⟩
    · rw [h2] at hj
      simp [Response.isRedirect] at hj
  · rw [h1] at hi
    simp [Response.isRedirect] at hi

/-- A run rejected for a missing token. -/
def rejectedRunMissingToken : HandlerInput :=
  { userToken := none, githubPath := none, envToken := none,
    rl := RateLimiter.new 10, cache := V1.SimpleCache.new FetchSuccess,
    now := 0, fetchResult := none }

/-- A run rejected for an invalid path (its token is accepted). -/
def rejectedRunBadPath : HandlerInput :=
  { userToken := some (str "t"), githubPath := some (str "bad"),
    envToken := some (str "t"), rl := RateLimiter.new 10,
    cache := V1.SimpleCache.new FetchSuccess, now := 0, fetchResult := none }

/-- Witness for C4: a missing-token rejection and an invalid-path
rejection produce the identical fixed redirect. -/
theorem rejected_responses_uniform_witness :
    ((handler rejectedRunMissingToken).1.isRedirect = true ∧
      (handler rejectedRunBadPath).1.isRedirect = true) ∧
    (handler rejectedRunMissingToken).1 = Response.redirect REDIRECT_URL ∧
    (handler rejectedRunMissingToken).1 = (handler rejectedRunBadPath).1 := by
  refine ⟨⟨by decide, by decide⟩, ?_⟩
  exact rejected_responses_uniform rejectedRunMissingToken rejectedRunBadPath
    (by decide) (by decide)

/-! ### Sanitize idempotence (claim C6) -/

/-- No two adjacent characters of the string are both slashes. -/
def noDoubleSlash : JStr → Bool
  | [] => true
  | [_] => true
  | a :: b :: r => !(a = '/' && b = '/') && noDoubleSlash (b :: r)

theorem noDoubleSlash_cons_cons (a b : Char) (r : JStr) :
    noDoubleSlash (a :: b :: r) = (!(a = '/' && b = '/') && noDoubleSlash (b :: r)) :=
  rfl

theorem jsEndsSlash_cons_cons (a b : Char) (r : JStr) :
    jsEndsSlash (a :: b :: r) = jsEndsSlash (b :: r) :=
  rfl

theorem collapseSlashes_cons_cons (a b : Char) (r : JStr) :
    collapseSlashes (a :: b :: r) =
      if a = '/' ∧ b = '/' then collapseSlashes (b :: r)
      else a :: collapseSlashes (b :: r) :=
  rfl

theorem dropLeadSlash_cons (c : Char) (r : JStr) :
    dropLeadSlash (c :: r) = if c = '/' then r else c :: r :=
  rfl

theorem noDoubleSlash_tail (a : Char) (l : JStr)
    (h : noDoubleSlash (a :: l) = true) : noDoubleSlash l = true := by
  cases l with
  | nil => rfl
  | cons b r =>
    rw [noDoubleSlash_cons_cons] at h
    exact (Bool.and_eq_true_iff.mp h).2

theorem collapseSlashes_head :
    ∀ (b : Char) (r : JStr), ∃ t, collapseSlashes (b :: r) = b :: t
  | b, [] => ⟨[], rfl⟩
  | b, c :: r' => by
    by_cases h : b = '/' ∧ c = '/'
    · obtain ⟨t, ht⟩ := collapseSlashes_head c r'
      refine ⟨t, ?_⟩
      rw [show collapseSlashes (b :: c :: r') = collapseSlashes (c :: r') by
        rw [collapseSlashes_cons_cons, if_pos h]]
      rw [ht, h.1, h.2]
    · refine ⟨collapseSlashes (c :: r'), ?_⟩
      rw [collapseSlashes_cons_cons, if_neg h]

theorem collapseSlashes_noDS : ∀ l : JStr, noDoubleSlash (collapseSlashes l) = true
  | [] => rfl
  | [c] => rfl
  | a :: b :: r => by
    by_cases h : a = '/' ∧ b = '/'
    · rw [show collapseSlashes (a :: b :: r) = collapseSlashes (b :: r) by
        rw [collapseSlashes_cons_cons, if_pos h]]
      exact collapseSlashes_noDS (b :: r)
    · rw [show collapseSlashes (a :: b :: r) = a :: collapseSlashes (b :: r) by
        rw [collapseSlashes_cons_cons, if_neg h]]
      obtain ⟨t, ht⟩ := collapseSlashes_head b r
      rw [ht, noDoubleSlash_cons_cons]
      have hnb : (!(a = '/' && b = '/')) = true := by
        rcases Decidable.not_and_iff_or_not.mp h with h1 | h1 <;> simp [h1]
      rw [hnb, ← ht, collapseSlashes_noDS (b :: r)]
      rfl

theorem collapseSlashes_id_of_noDS :
    ∀ l : JStr, noDoubleSlash l = true → collapseSlashes l = l
  | [], _ => rfl
  | [c], _ => rfl
  | a :: b :: r, h => by
    rw [noDoubleSlash_cons_cons] at h
    obtain ⟨h1, h2⟩ := Bool.and_eq_true_iff.mp h
    have hne : ¬ (a = '/' ∧ b = '/') := by
      intro hab
      simp [hab.1, hab.2] at h1
    rw [collapseSlashes_cons_cons, if_neg hne,
      collapseSlashes_id_of_noDS (b :: r) h2]

theorem jsStartsSlash_cons (c : Char) (r : JStr) :
    jsStartsSlash (c :: r) = decide (c = '/') :=
  rfl

theorem dropLeadSlash_id (l : JStr) (h : jsStartsSlash l = false) :
    dropLeadSlash l = l := by
  cases l with
  | nil => rfl
  | cons c r =>
    rw [jsStartsSlash_cons] at h
    have hc : ¬ (c = '/') := by simpa using h
    rw [dropLeadSlash_cons, if_neg hc]

theorem jsEndsSlash_concat :
    ∀ (u : JStr) (c : Char), jsEndsSlash (u ++ [c]) = decide (c = '/')
  | [], c => rfl
  | [a], c => rfl
  | a :: b :: u', c => by
    have heq : (a :: b :: u') ++ [c] = a :: b :: (u' ++ [c]) := rfl
    rw [heq, jsEndsSlash_cons_cons]
    exact jsEndsSlash_concat (b :: u') c

theorem dropTrailSlash_cases (z : JStr) :
    (jsEndsSlash z = false ∧ dropTrailSlash z = z) ∨
    (∃ u, z = u ++ ['/'] ∧ dropTrailSlash z = u ∧ jsEndsSlash z = true) := by
  cases hz : z.reverse with
  | nil =>
    have hznil : z = [] := by simpa using congrArg List.reverse hz
    subst hznil
    exact Or.inl ⟨rfl, rfl⟩
  | cons c r =>
    have hzeq : z = r.reverse ++ [c] := by
      have := congrArg List.reverse hz
      simpa using this
    by_cases hc : c = '/'
    · subst hc
      refine Or.inr ⟨r.reverse, hzeq, ?_, ?_⟩
      · unfold dropTrailSlash
        rw [hz]
        show (dropLeadSlash ('/' :: r)).reverse = r.reverse
        rw [dropLeadSlash_cons, if_pos rfl]
      · rw [hzeq, jsEndsSlash_concat]
        simp
    · refine Or.inl ⟨?_, ?_⟩
      · rw [hzeq, jsEndsSlash_concat]
        simp [hc]
      · unfold dropTrailSlash
        rw [hz]
        show (dropLeadSlash (c :: r)).reverse = z
        rw [dropLeadSlash_cons, if_neg hc, ← hz, List.reverse_reverse]

theorem dropTrailSlash_id (l : JStr) (h : jsEndsSlash l = false) :
    dropTrailSlash l = l := by
  rcases dropTrailSlash_cases l with ⟨_, hid⟩ | ⟨u, _, _, hend⟩
  · exact hid
  · rw [hend] at h
    cases h

theorem noDS_append_left :
    ∀ (u w : JStr), noDoubleSlash (u ++ w) = true → noDoubleSlash u = true
  | [], _, _ => rfl
  | [a], _, _ => rfl
  | a :: b :: u', w, h => by
    have heq : (a :: b :: u') ++ w = a :: b :: (u' ++ w) := rfl
    rw [heq, noDoubleSlash_cons_cons] at h
    obtain ⟨h1, h2⟩ := Bool.and_eq_true_iff.mp h
    rw [noDoubleSlash_cons_cons, h1,
      noDS_append_left (b :: u') w h2]
    rfl

theorem jsStartsSlash_dropLead_of_noDS (w : JStr) (h : noDoubleSlash w = true) :
    jsStartsSlash (dropLeadSlash w) = false := by
  cases w with
  | nil => rfl
  | cons c r =>
    by_cases hc : c = '/'
    · subst hc
      have hd : dropLeadSlash ('/' :: r) = r := by
        rw [dropLeadSlash_cons, if_pos rfl]
      rw [hd]
      cases r with
      | nil => rfl
      | cons d r' =>
        rw [noDoubleSlash_cons_cons] at h
        obtain ⟨h1, _⟩ := Bool.and_eq_true_iff.mp h
        have hdne : ¬ (d = '/') := by
          intro hd2
          simp [hd2] at h1
        rw [jsStartsSlash_cons]
        simpa using hdne
    · have hd : dropLeadSlash (c :: r) = c :: r := by
        rw [dropLeadSlash_cons, if_neg hc]
      rw [hd, jsStartsSlash_cons]
      simpa using hc

theorem jsStartsSlash_append (u w : JStr) (hu : u ≠ []) :
    jsStartsSlash (u ++ w) = jsStartsSlash u := by
  cases u with
  | nil => exact absurd rfl hu
  | cons c r =>
    have heq : (c :: r) ++ w = c :: (r ++ w) := rfl
    rw [heq, jsStartsSlash_cons, jsStartsSlash_cons]

theorem ends_false_of_noDS_concat :
    ∀ u : JStr, noDoubleSlash (u ++ ['/']) = true → jsEndsSlash u = false
  | [], _ => rfl
  | [a], h => by
    rw [show [a] ++ ['/'] = a :: '/' :: [] from rfl, noDoubleSlash_cons_cons] at h
    obtain ⟨h1, _⟩ := Bool.and_eq_true_iff.mp h
    have ha : ¬ (a = '/') := by
      intro ha
      simp [ha] at h1
    show (decide (a = '/')) = false
    simpa using ha
  | a :: b :: u', h => by
    have heq : (a :: b :: u') ++ ['/'] = a :: ((b :: u') ++ ['/']) := rfl
    rw [heq] at h
    have h2 := noDoubleSlash_tail a _ h
    rw [jsEndsSlash_cons_cons]
    exact ends_false_of_noDS_concat (b :: u') h2

theorem noDS_dropLead (w : JStr) (h : noDoubleSlash w = true) :
    noDoubleSlash (dropLeadSlash w) = true := by
  cases w with
  | nil => rfl
  | cons c r =>
    by_cases hc : c = '/'
    · subst hc
      have hd : dropLeadSlash ('/' :: r) = r := by
        rw [dropLeadSlash_cons, if_pos rfl]
      rw [hd]
      exact noDoubleSlash_tail _ _ h
    · have hd : dropLeadSlash (c :: r) = c :: r := by
        rw [dropLeadSlash_cons, if_neg hc]
      rw [hd]
      exact h

theorem noDS_dropTrail (z : JStr) (h : noDoubleSlash z = true) :
    noDoubleSlash (dropTrailSlash z) = true := by
  rcases dropTrailSlash_cases z with ⟨_, hid⟩ | ⟨u, hu, hdt, _⟩
  · rw [hid]
    exact h
  · rw [hdt]
    rw [hu] at h
    exact noDS_append_left u ['/'] h

/-- The three structural facts about every sanitized string: no double
slash, no leading slash, no trailing slash. -/
theorem sanitizePath_shape (x : JStr) :
    noDoubleSlash (sanitizePath x) = true ∧
    jsStartsSlash (sanitizePath x) = false ∧
    jsEndsSlash (sanitizePath x) = false := by
  unfold sanitizePath
  set w := collapseSlashes (jsTrim x) with hw
  have hwnds : noDoubleSlash w = true := collapseSlashes_noDS (jsTrim x)
  set z := dropLeadSlash w with hz
  have hznds : noDoubleSlash z = true := noDS_dropLead w hwnds
  have hzstart : jsStartsSlash z = false := jsStartsSlash_dropLead_of_noDS w hwnds
  refine ⟨noDS_dropTrail z hznds, ?_, ?_⟩
  · rcases dropTrailSlash_cases z with ⟨_, hid⟩ | ⟨u, hu, hdt, _⟩
    · rw [hid]
      exact hzstart
    · rw [hdt]
      cases u with
      | nil => rfl
      | cons c r =>
        rw [hu, jsStartsSlash_append (c :: r) ['/'] (by simp)] at hzstart
        exact hzstart
  · rcases dropTrailSlash_cases z with ⟨hend, hid⟩ | ⟨u, hu, hdt, _⟩
    · rw [hid]
      exact hend
    · rw [hdt]
      rw [hu] at hznds
      exact ends_false_of_noDS_concat u hznds

/-- Counterexample for C6 as stated: sanitizing `"/ a/b"` yields
`" a/b"` (stripping the leading slash exposes a space), and a second
sanitize trims that space, so the two results differ. -/
theorem sanitizePath_not_idempotent_cex :
    sanitizePath (sanitizePath (str "/ a/b")) ≠ sanitizePath (str "/ a/b") := by
  decide

/-- Claim C6 amended: `sanitizePath` is idempotent on every input whose
sanitized form has no leading or trailing whitespace (equivalently, is
unchanged by trim); in general, stripping the leading or trailing slash
can expose edge whitespace which only the second application trims. -/
theorem sanitizePath_idempotent_amended (x : JStr)
    (h : jsTrim (sanitizePath x) = sanitizePath x) :
    sanitizePath (sanitizePath x) = sanitizePath x := by
  obtain ⟨hnds, hstart, hend⟩ := sanitizePath_shape x
  show dropTrailSlash (dropLeadSlash (collapseSlashes (jsTrim (sanitizePath x))))
    = sanitizePath x
  rw [h, collapseSlashes_id_of_noDS _ hnds, dropLeadSlash_id _ hstart,
    dropTrailSlash_id _ hend]

/-- Witness for C6's amended theorem: `"//a//b/"` sanitizes to `"a/b"`,
which trim leaves unchanged. -/
theorem sanitizePath_idempotent_amended_witness :
    jsTrim (sanitizePath (str "//a//b/")) = sanitizePath (str "//a//b/") ∧
    sanitizePath (sanitizePath (str "//a//b/")) = sanitizePath (str "//a//b/") :=
  ⟨by decide, sanitizePath_idempotent_amended (str "//a//b/") (by decide)⟩

/-! ### Path validation (claim C5): split/join lemmas -/

theorem splitSlash_exists (l : JStr) : ∃ s ss, splitSlash l = s :: ss := by
  cases l with
  | nil => exact ⟨[], [], rfl⟩
  | cons c cs =>
    unfold splitSlash
    by_cases hc : c = '/'
    · rw [if_pos hc]
      exact ⟨[], splitSlash cs, rfl⟩
    · rw [if_neg hc]
      cases splitSlash cs with
      | nil => exact ⟨[c], [], rfl⟩
      | cons s ss => exact ⟨c :: s, ss, rfl⟩

theorem splitSlash_cons_eq (c : Char) (cs : JStr) (s : JStr) (ss : List JStr)
    (h : splitSlash cs = s :: ss) :
    splitSlash (c :: cs) = if c = '/' then [] :: s :: ss else (c :: s) :: ss := by
  show (if c = '/' then [] :: splitSlash cs
        else
          match splitSlash cs with
          | [] => [[c]]
          | s :: ss => (c :: s) :: ss) = _
  rw [h]

theorem joinSlash_cons₂ (s x : JStr) (xs : List JStr) :
    joinSlash (s :: x :: xs) = s ++ '/' :: joinSlash (x :: xs) :=
  rfl

theorem joinSlash_splitSlash : ∀ l : JStr, joinSlash (splitSlash l) = l
  | [] => rfl
  | c :: cs => by
    obtain ⟨s, ss, h⟩ := splitSlash_exists cs
    have ih := joinSlash_splitSlash cs
    rw [splitSlash_cons_eq c cs s ss h]
    by_cases hc : c = '/'
    · rw [if_pos hc, joinSlash_cons₂, List.nil_append, ← h, ih, hc]
    · rw [if_neg hc]
      cases ss with
      | nil =>
        have hseq : s = cs := by
          rw [h] at ih
          exact ih
        show c :: s = c :: cs
        rw [hseq]
      | cons x xs =>
        have hexp : joinSlash ((c :: s) :: x :: xs)
            = c :: (s ++ '/' :: joinSlash (x :: xs)) := rfl
        rw [hexp, ← joinSlash_cons₂, ← h, ih]

theorem splitSlash_append_slash :
    ∀ (s t : JStr), (∀ ch ∈ s, ch ≠ '/') →
      splitSlash (s ++ '/' :: t) = s :: splitSlash t
  | [], t, _ => by
    obtain ⟨u, us, h⟩ := splitSlash_exists t
    rw [List.nil_append, splitSlash_cons_eq '/' t u us h, if_pos rfl, ← h]
  | c :: s', t, hs => by
    have hc : c ≠ '/' := hs c (List.mem_cons_self _ _)
    have ih := splitSlash_append_slash s' t (fun ch hch => hs ch (List.mem_cons_of_mem _ hch))
    have heq : (c :: s') ++ '/' :: t = c :: (s' ++ '/' :: t) := rfl
    obtain ⟨u, us, hu⟩ := splitSlash_exists t
    rw [heq, splitSlash_cons_eq c _ s' (splitSlash t) ih, if_neg hc]

theorem splitSlash_seg_no_slash :
    ∀ (l : JStr) (seg : JStr), seg ∈ splitSlash l → '/' ∉ seg
  | [], seg, h => by
    simp only [splitSlash, List.mem_singleton] at h
    subst h
    simp
  | c :: cs, seg, h => by
    obtain ⟨s, ss, hsc⟩ := splitSlash_exists cs
    rw [splitSlash_cons_eq c cs s ss hsc] at h
    by_cases hc : c = '/'
    · rw [if_pos hc] at h
      rcases List.mem_cons.mp h with h1 | h1
      · subst h1
        simp
      · exact splitSlash_seg_no_slash cs seg (hsc ▸ h1)
    · rw [if_neg hc] at h
      rcases List.mem_cons.mp h with h1 | h1
      · subst h1
        intro hsl
        rcases List.mem_cons.mp hsl with h2 | h2
        · exact hc h2.symm
        · exact splitSlash_seg_no_slash cs s (hsc ▸ List.mem_cons_self _ _) h2
      · exact splitSlash_seg_no_slash cs seg
          (hsc ▸ List.mem_cons_of_mem _ h1)

theorem splitSlash_seg_mem :
    ∀ (l : JStr) (seg : JStr) (ch : Char), seg ∈ splitSlash l → ch ∈ seg → ch ∈ l
  | [], seg, ch, h, hch => by
    simp only [splitSlash, List.mem_singleton] at h
    subst h
    cases hch
  | c :: cs, seg, ch, h, hch => by
    obtain ⟨s, ss, hsc⟩ := splitSlash_exists cs
    rw [splitSlash_cons_eq c cs s ss hsc] at h
    by_cases hc : c = '/'
    · rw [if_pos hc] at h
      rcases List.mem_cons.mp h with h1 | h1
      · subst h1
        cases hch
      · exact List.mem_cons_of_mem _ (splitSlash_seg_mem cs seg ch (hsc ▸ h1) hch)
    · rw [if_neg hc] at h
      rcases List.mem_cons.mp h with h1 | h1
      · subst h1
        rcases List.mem_cons.mp hch with h2 | h2
        · subst h2
          exact List.mem_cons_self _ _
        · exact List.mem_cons_of_mem _
            (splitSlash_seg_mem cs s ch (hsc ▸ List.mem_cons_self _ _) h2)
      · exact List.mem_cons_of_mem _
          (splitSlash_seg_mem cs seg ch (hsc ▸ List.mem_cons_of_mem _ h1) hch)

theorem splitSlash_headD_empty :
    ∀ l : JStr, (splitSlash l).headD [] = [] → l = [] ∨ jsStartsSlash l = true
  | [], _ => Or.inl rfl
  | c :: cs, h => by
    obtain ⟨s, ss, hsc⟩ := splitSlash_exists cs
    rw [splitSlash_cons_eq c cs s ss hsc] at h
    by_cases hc : c = '/'
    · subst hc
      exact Or.inr rfl
    · rw [if_neg hc] at h
      cases h

theorem jsIncludes_cons (c : Char) (t : JStr) (n : JStr) :
    jsIncludes (c :: t) n = (isPre n (c :: t) || jsIncludes t n) :=
  rfl

theorem jsIncludes_cons_of (c : Char) (t : JStr) (n : JStr)
    (h : jsIncludes t n = true) : jsIncludes (c :: t) n = true := by
  rw [jsIncludes_cons, h, Bool.or_true]

theorem splitSlash_tail_empty :
    ∀ l : JStr, [] ∈ (splitSlash l).tail →
      jsEndsSlash l = true ∨ jsIncludes l (str "//") = true
  | [], h => by
    simp [splitSlash] at h
  | c :: cs, h => by
    obtain ⟨s, ss, hsc⟩ := splitSlash_exists cs
    rw [splitSlash_cons_eq c cs s ss hsc] at h
    by_cases hc : c = '/'
    · rw [if_pos hc] at h
      subst hc
      have hmem : [] ∈ s :: ss := h
      rcases List.mem_cons.mp hmem with hhd | htl
      · have hhead : (splitSlash cs).headD [] = [] := by
          rw [hsc]
          exact hhd.symm
        rcases splitSlash_headD_empty cs hhead with hnil | hst
        · subst hnil
          exact Or.inl (by decide)
        · cases cs with
          | nil => cases hst
          | cons d cs' =>
            rw [jsStartsSlash_cons] at hst
            have hd : d = '/' := by simpa using hst
            subst hd
            refine Or.inr ?_
            rw [jsIncludes_cons]
            have : isPre (str "//") ('/' :: '/' :: cs') = true := by
              simp [str, isPre]
            rw [this, Bool.true_or]
      · have htail : [] ∈ (splitSlash cs).tail := by
          rw [hsc]
          exact htl
        rcases splitSlash_tail_empty cs htail with hend | hinc
        · cases cs with
          | nil => cases hend
          | cons d cs' =>
            exact Or.inl ((jsEndsSlash_cons_cons '/' d cs') ▸ hend)
        · exact Or.inr (jsIncludes_cons_of '/' cs _ hinc)
    · rw [if_neg hc] at h
      have htail : [] ∈ (splitSlash cs).tail := by
        rw [hsc]
        exact h
      rcases splitSlash_tail_empty cs htail with hend | hinc
      · cases cs with
        | nil => cases hend
        | cons d cs' =>
          exact Or.inl ((jsEndsSlash_cons_cons c d cs') ▸ hend)
      · exact Or.inr (jsIncludes_cons_of c cs _ hinc)

theorem splitSlash_all_ne_empty (l : JStr) (hne : l ≠ [])
    (hstart : jsStartsSlash l = false) (hend : jsEndsSlash l = false)
    (hinc : jsIncludes l (str "//") = false) :
    ∀ seg ∈ splitSlash l, seg ≠ [] := by
  intro seg hmem hcontra
  subst hcontra
  obtain ⟨s, ss, hsc⟩ := splitSlash_exists l
  rw [hsc] at hmem
  rcases List.mem_cons.mp hmem with hhd | htl
  · have hhead : (splitSlash l).headD [] = [] := by
      rw [hsc]
      exact hhd.symm
    rcases splitSlash_headD_empty l hhead with h1 | h1
    · exact hne h1
    · rw [hstart] at h1
      cases h1
  · have htail : [] ∈ (splitSlash l).tail := by
      rw [hsc]
      exact htl
    rcases splitSlash_tail_empty l htail with h1 | h1
    · rw [hend] at h1
      cases h1
    · rw [hinc] at h1
      cases h1

theorem joinSlash_mem :
    ∀ (L : List JStr) (ch : Char), ch ∈ joinSlash L →
      ch = '/' ∨ ∃ seg ∈ L, ch ∈ seg
  | [], ch, h => by cases h
  | [s], ch, h => Or.inr ⟨s, List.mem_singleton.mpr rfl, h⟩
  | s :: x :: xs, ch, h => by
    rw [joinSlash_cons₂] at h
    rcases List.mem_append.mp h with h1 | h1
    · exact Or.inr ⟨s, List.mem_cons_self _ _, h1⟩
    · rcases List.mem_cons.mp h1 with h2 | h2
      · exact Or.inl h2
      · rcases joinSlash_mem (x :: xs) ch h2 with h3 | ⟨seg, hseg, hchs⟩
        · exact Or.inl h3
        · exact Or.inr ⟨seg, List.mem_cons_of_mem _ hseg, hchs⟩

/-! ### Path validation (claim C5): eatSeg lemmas -/

theorem eatSeg_some (l r : JStr) (h : eatSeg l = some r) :
    ∃ s, l = s ++ '/' :: r ∧ s ≠ [] ∧ ∀ ch ∈ s, ch ≠ '/' := by
  unfold eatSeg at h
  dsimp only at h
  by_cases hemp : (l.takeWhile (fun c => c ≠ '/')).isEmpty
  · rw [if_pos hemp] at h
    cases h
  · rw [if_neg hemp] at h
    cases hdrop : l.dropWhile (fun c => c ≠ '/') with
    | nil =>
      rw [hdrop] at h
      cases h
    | cons c rest =>
      rw [hdrop] at h
      dsimp only at h
      by_cases hc : c = '/'
      · rw [if_pos hc] at h
        subst hc
        have hr : rest = r := by
          injection h
        subst hr
        have hsplit : l.takeWhile (fun c => c ≠ '/') ++ l.dropWhile (fun c => c ≠ '/') = l :=
          List.takeWhile_append_dropWhile _ _
        refine ⟨l.takeWhile (fun c => c ≠ '/'), ?_, ?_, ?_⟩
        · conv_lhs => rw [← hsplit]
          rw [hdrop]
        · intro hcontra
          rw [hcontra] at hemp
          exact hemp rfl
        · intro ch hch
          have := List.mem_takeWhile_imp hch
          simpa using this
      · rw [if_neg hc] at h
        cases h

theorem takeWhile_dropWhile_seg (s r : JStr) (hs : ∀ ch ∈ s, ch ≠ '/') :
    (s ++ '/' :: r).takeWhile (fun c => c ≠ '/') = s ∧
    (s ++ '/' :: r).dropWhile (fun c => c ≠ '/') = '/' :: r := by
  induction s with
  | nil =>
    constructor
    · simp [List.takeWhile_cons]
    · simp [List.dropWhile_cons]
  | cons c s' ih =>
    have hc : c ≠ '/' := hs c (List.mem_cons_self _ _)
    obtain ⟨iht, ihd⟩ := ih (fun ch hch => hs ch (List.mem_cons_of_mem _ hch))
    constructor
    · have heq : (c :: s') ++ '/' :: r = c :: (s' ++ '/' :: r) := rfl
      rw [heq, List.takeWhile_cons]
      split
      · rw [iht]
      · rename_i hfalse
        simp at hfalse
        exact absurd hfalse hc
    · have heq : (c :: s') ++ '/' :: r = c :: (s' ++ '/' :: r) := rfl
      rw [heq, List.dropWhile_cons]
      split
      · rw [ihd]
      · rename_i hfalse
        simp at hfalse
        exact absurd hfalse hc

theorem eatSeg_append (s r : JStr) (hne : s ≠ []) (hs : ∀ ch ∈ s, ch ≠ '/') :
    eatSeg (s ++ '/' :: r) = some r := by
  obtain ⟨ht, hd⟩ := takeWhile_dropWhile_seg s r hs
  unfold eatSeg
  dsimp only
  rw [ht, hd]
  have hemp : s.isEmpty = false := by
    cases s with
    | nil => exact absurd rfl hne
    | cons a t => rfl
  simp [hemp]

/-! ### Path validation (claim C5): boolean characterisations -/

theorem validatePath_iff (l : JStr) :
    validatePath l = true ↔
      (l ≠ [] ∧ jsLength l ≤ 1000 ∧ pathPatternTest l = true ∧
       jsIncludes l (str "..") = false ∧ jsIncludes l (str "//") = false ∧
       jsStartsSlash l = false ∧ jsEndsSlash l = false) := by
  unfold validatePath
  split_ifs with h1 h2 h3
  · constructor
    · intro hf
      cases hf
    · rintro ⟨hne, -⟩
      exact absurd (by simpa using h1) hne
  · constructor
    · intro hf
      cases hf
    · rintro ⟨-, hlen, -⟩
      rw [MAX_PATH_LENGTH] at h2
      omega
  · constructor
    · intro hf
      cases hf
    · rintro ⟨-, -, hpat, -⟩
      rw [hpat] at h3
      cases h3
  · have hne : l ≠ [] := by simpa using h1
    have hlen : jsLength l ≤ 1000 := by
      rw [MAX_PATH_LENGTH] at h2
      omega
    have hpat : pathPatternTest l = true := by simpa using h3
    simp only [Bool.not_eq_true', Bool.or_eq_false_iff]
    constructor
    · rintro ⟨⟨⟨hdd, hds⟩, hst⟩, hen⟩
      exact ⟨hne, hlen, hpat, hdd, hds, hst, hen⟩
    · rintro ⟨-, -, -, hdd, hds, hst, hen⟩
      exact ⟨⟨⟨hdd, hds⟩, hst⟩, hen⟩

theorem amendedAccepts_iff (l : JStr) :
    amendedAccepts l = true ↔
      (jsLength l ≤ 1000 ∧ 4 ≤ (splitSlash l).length ∧
       (∀ seg ∈ splitSlash l, seg ≠ []) ∧
       jsIncludes l (str "..") = false ∧ jsIncludes l (str "//") = false ∧
       jsStartsSlash l = false ∧ jsEndsSlash l = false ∧
       (∀ seg ∈ (splitSlash l).drop 3, ∀ ch ∈ seg, isLineTerminator ch = false)) := by
  unfold amendedAccepts claimAccepts
  simp only [Bool.and_eq_true, decide_eq_true_eq, List.all_eq_true,
    Bool.not_eq_true', Bool.not_eq_true]
  constructor
  · rintro ⟨⟨⟨⟨⟨⟨⟨hlen, h4⟩, hseg⟩, hdd⟩, hds⟩, hst⟩, hen⟩, hlt⟩
    refine ⟨hlen, h4, ?_, hdd, hds, hst, hen, ?_⟩
    · intro seg hmem
      have := hseg seg hmem
      simpa using this
    · intro seg hmem ch hch
      have := hlt seg hmem ch hch
      simpa using this
  · rintro ⟨hlen, h4, hseg, hdd, hds, hst, hen, hlt⟩
    refine ⟨⟨⟨⟨⟨⟨⟨hlen, h4⟩, ?_⟩, hdd⟩, hds⟩, hst⟩, hen⟩, ?_⟩
    · intro seg hmem
      have := hseg seg hmem
      simpa using this
    · intro seg hmem ch hch
      have := hlt seg hmem ch hch
      simpa using this

/-- Counterexample for C5 as stated: `"a/b/c/d\n"` satisfies every
condition of the claim's acceptance criterion (four non-empty segments,
no `..`, `//`, leading or trailing slash, length within bound), yet
`validatePath` rejects it — in the regular expression, `.` does not
match the newline in the final remainder. -/
theorem validatePath_claim_cex :
    claimAccepts (str "a/b/c/d\n") = true ∧
    validatePath (str "a/b/c/d\n") = false := by
  decide

/-- Claim C5 amended: `validatePath` accepts exactly the strings of the
claim's criterion with one additional restriction forced by `.+$` in the
shape regular expression: the remainder after the third slash contains
no LineTerminator character.  The claim's two concrete test cases hold
as stated. -/
theorem validatePath_amended_characterization :
    (∀ l : JStr, validatePath l = true ↔ amendedAccepts l = true) ∧
    validatePath (sanitizePath (str "a/../b/c/d")) = false ∧
    sanitizePath (str "o/r/b/p/q") = str "o/r/b/p/q" ∧
    validatePath (str "o/r/b/p/q") = true := by
  refine ⟨?_, by decide, by decide, by decide⟩
  intro l
  rw [validatePath_iff, amendedAccepts_iff]
  constructor
  · rintro ⟨hne, hlen, hpat, hdd, hds, hst, hen⟩
    unfold pathPatternTest at hpat
    cases he1 : eatSeg l with
    | none =>
      rw [he1] at hpat
      cases hpat
    | some l1 =>
      rw [he1] at hpat
      dsimp only at hpat
      cases he2 : eatSeg l1 with
      | none =>
        rw [he2] at hpat
        cases hpat
      | some l2 =>
        rw [he2] at hpat
        dsimp only at hpat
        cases he3 : eatSeg l2 with
        | none =>
          rw [he3] at hpat
          cases hpat
        | some rest =>
          rw [he3] at hpat
          dsimp only at hpat
          obtain ⟨hrne, hrall⟩ := Bool.and_eq_true_iff.mp hpat
          obtain ⟨s1, hl1, hs1ne, hs1⟩ := eatSeg_some l l1 he1
          obtain ⟨s2, hl2, hs2ne, hs2⟩ := eatSeg_some l1 l2 he2
          obtain ⟨s3, hl3, hs3ne, hs3⟩ := eatSeg_some l2 rest he3
          have hsplit : splitSlash l = s1 :: s2 :: s3 :: splitSlash rest := by
            rw [hl1, splitSlash_append_slash s1 l1 hs1, hl2,
              splitSlash_append_slash s2 l2 hs2, hl3,
              splitSlash_append_slash s3 rest hs3]
          refine ⟨hlen, ?_, splitSlash_all_ne_empty l hne hst hen hds,
            hdd, hds, hst, hen, ?_⟩
          · rw [hsplit]
            obtain ⟨u, us, hu⟩ := splitSlash_exists rest
            rw [hu]
            simp only [List.length_cons]
            omega
          · intro seg hseg ch hch
            rw [hsplit] at hseg
            simp only [List.drop_succ_cons, List.drop_zero] at hseg
            have hchrest : ch ∈ rest := splitSlash_seg_mem rest seg ch hseg hch
            have := List.all_eq_true.mp hrall ch hchrest
            simpa using this
  · rintro ⟨hlen, hlen4, hsegne, hdd, hds, hst, hen, hlt⟩
    cases hg1 : splitSlash l with
    | nil =>
      rw [hg1] at hlen4
      simp at hlen4
    | cons g1 r1 =>
      cases hg2 : r1 with
      | nil =>
        rw [hg1, hg2] at hlen4
        simp at hlen4
      | cons g2 r2 =>
        cases hg3 : r2 with
        | nil =>
          rw [hg1, hg2, hg3] at hlen4
          simp at hlen4
        | cons g3 r3 =>
          cases hg4 : r3 with
          | nil =>
            rw [hg1, hg2, hg3, hg4] at hlen4
            simp at hlen4
          | cons g4 gs =>
            have hsp : splitSlash l = g1 :: g2 :: g3 :: g4 :: gs := by
              rw [hg1, hg2, hg3, hg4]
            have hjoin := joinSlash_splitSlash l
            rw [hsp] at hjoin
            have hl : l = g1 ++ '/' :: (g2 ++ '/' :: (g3 ++ '/' :: joinSlash (g4 :: gs))) := by
              rw [← hjoin, joinSlash_cons₂, joinSlash_cons₂, joinSlash_cons₂]
            have hm1 : g1 ∈ splitSlash l := by
              rw [hsp]
              exact List.mem_cons_self _ _
            have hm2 : g2 ∈ splitSlash l := by
              rw [hsp]
              exact List.mem_cons_of_mem _ (List.mem_cons_self _ _)
            have hm3 : g3 ∈ splitSlash l := by
              rw [hsp]
              exact List.mem_cons_of_mem _ (List.mem_cons_of_mem _ (List.mem_cons_self _ _))
            have hm4 : g4 ∈ splitSlash l := by
              rw [hsp]
              exact List.mem_cons_of_mem _ (List.mem_cons_of_mem _
                (List.mem_cons_of_mem _ (List.mem_cons_self _ _)))
            have hns : ∀ g : JStr, g ∈ splitSlash l → ∀ ch ∈ g, ch ≠ '/' := by
              intro g hg ch hch hceq
              exact splitSlash_seg_no_slash l g hg (hceq ▸ hch)
            refine ⟨?_, hlen, ?_, hdd, hds, hst, hen⟩
            · rw [hl]
              cases g1 <;> simp
            · unfold pathPatternTest
              rw [hl, eatSeg_append g1 _ (hsegne g1 hm1) (hns g1 hm1)]
              dsimp only
              rw [eatSeg_append g2 _ (hsegne g2 hm2) (hns g2 hm2)]
              dsimp only
              rw [eatSeg_append g3 _ (hsegne g3 hm3) (hns g3 hm3)]
              dsimp only
              rw [Bool.and_eq_true]
              constructor
              · have hg4ne : g4 ≠ [] := hsegne g4 hm4
                cases gs with
                | nil =>
                  simpa using hg4ne
                | cons x xs =>
                  rw [joinSlash_cons₂]
                  cases g4 with
                  | nil => exact absurd rfl hg4ne
                  | cons a t => simp
              · rw [List.all_eq_true]
                intro ch hch
                rcases joinSlash_mem (g4 :: gs) ch hch with hsl | ⟨seg, hseg, hchseg⟩
                · subst hsl
                  decide
                · have hdrop : seg ∈ (splitSlash l).drop 3 := by
                    rw [hsp]
                    simpa using hseg
                  have := hlt seg hdrop ch hchseg
                  simp [this]

end GithubRaw
